import Mathlib

/-!
Verification of the YOLOv3 decode-and-suppress pipeline from
YOLOv3_DetectObjectFromImage.ipynb.

The notebook's core logic is:
  * a per-row decode loop turning normalized network outputs into pixel
    boxes (image mode, threshold 0.5; video mode, threshold 0.2);
  * a call to the library NMS primitive with (boxes, confidences,
    score_threshold, nms_threshold);
  * a video capture loop terminated by the ESC key, followed by
    cap.release();
  * an annotation pass that, in image mode, indexes the per-class color
    table by detection index.

Real numbers from the Python code are modelled as rationals; the cast
int(...) is truncation toward zero.
-/

namespace Yolo

/-- Truncation toward zero, the semantics of Python's int() cast applied to
a real value. -/
def truncQ (q : ℚ) : ℤ :=
  if q < 0 then ⌈q⌉ else ⌊q⌋

/-- A pixel-space bounding box [x, y, w, h] as appended to the boxes list:
top-left corner plus extent, all ints. -/
structure Box where
  x : ℤ
  y : ℤ
  w : ℤ
  h : ℤ
deriving DecidableEq, Repr

/-- One raw output row: [center_x, center_y, width, height, scores...];
scores is detection[5:] (the objectness entry detection[4] is never read
by the notebook). -/
structure RawRow where
  cx : ℚ
  cy : ℚ
  w : ℚ
  h : ℚ
  scores : List ℚ
deriving DecidableEq, Repr

/-- A decoded detection: class id (np.argmax of scores), confidence
(the score at that index) and the pixel box. -/
structure Detection where
  class_id : ℕ
  confidence : ℚ
  box : Box
deriving DecidableEq, Repr

/-- np.argmax over a score list: index of the maximum value, first
occurrence on ties. -/
def argmax : List ℚ → ℕ
  | [] => 0
  | x :: rest =>
    let j := argmax rest
    if rest.getD j 0 > x then j + 1 else 0

/-- The confidence the decode loop reads: scores[argmax(scores)]. -/
def maxScore (scores : List ℚ) : ℚ :=
  scores.getD (argmax scores) 0

/-- One iteration of the notebook's decode loop:
  scores = detection[5:]; class_id = np.argmax(scores);
  confidence = scores[class_id];
  if confidence > threshold:
    center_x = int(cx*width); center_y = int(cy*height);
    w = int(w*width); h = int(h*height);
    x = int(center_x - w/2); y = int(center_y - h/2);
    append [x, y, w, h], confidence, class_id.
No check relates the length of scores to the class-name list. -/
def decodeRow (width height : ℕ) (threshold : ℚ) (r : RawRow) : Option Detection :=
  let class_id := argmax r.scores
  let confidence := r.scores.getD class_id 0
  if confidence > threshold then
    let center_x : ℤ := truncQ (r.cx * width)
    let center_y : ℤ := truncQ (r.cy * height)
    let w : ℤ := truncQ (r.w * width)
    let h : ℤ := truncQ (r.h * height)
    let x : ℤ := truncQ ((center_x : ℚ) - (w : ℚ) / 2)
    let y : ℤ := truncQ ((center_y : ℚ) - (h : ℚ) / 2)
    some ⟨class_id, confidence, ⟨x, y, w, h⟩⟩
  else
    none

/-- The full decode loop over a frame's raw rows, in input row order. -/
def decode (width height : ℕ) (threshold : ℚ) (rows : List RawRow) : List Detection :=
  rows.filterMap (decodeRow width height threshold)

/-- scores[argmax scores] bounds every score from above. -/
theorem maxScore_is_max (scores : List ℚ) : ∀ s ∈ scores, s ≤ maxScore scores := by
  induction scores with
  | nil => intro s hs; cases hs
  | cons x rest ih =>
    intro s hs
    unfold maxScore argmax
    simp only []
    by_cases hgt : rest.getD (argmax rest) 0 > x
    · simp only [if_pos hgt, List.getD_cons_succ]
      rcases List.mem_cons.mp hs with h | h
      · exact h ▸ le_of_lt hgt
      · exact ih s h
    · simp only [if_neg hgt, List.getD_cons_zero]
      rcases List.mem_cons.mp hs with h | h
      · exact le_of_eq h
      · exact le_trans (ih s h) (not_lt.mp hgt)

/-- The decode loop emits a detection exactly when scores[argmax scores]
exceeds the threshold, and the emitted confidence is that value. -/
theorem decodeRow_eq_none_iff (width height : ℕ) (threshold : ℚ) (r : RawRow) :
    decodeRow width height threshold r = none ↔ maxScore r.scores ≤ threshold := by
  unfold decodeRow maxScore
  by_cases h : r.scores.getD (argmax r.scores) 0 > threshold
  · simp [h]
  · simp [h, not_lt.mp h]

/-- Every emitted detection carries the maximum score as its confidence. -/
theorem decodeRow_confidence (width height : ℕ) (threshold : ℚ) (r : RawRow)
    (d : Detection) (h : decodeRow width height threshold r = some d) :
    d.confidence = maxScore r.scores := by
  simp only [decodeRow] at h
  split at h
  · cases h
    simp [maxScore]
  · exact Option.noConfusion h

/-- Claim C2: for every RawRow sequence and every confidenceThreshold, the
decoder excludes every row whose maximum class score is at most the
threshold, and every emitted Detection has confidence strictly greater
than the threshold (that confidence bounding all of the row's scores). -/
theorem claim_c2_decoder_threshold (width height : ℕ) (threshold : ℚ)
    (rows : List RawRow) :
    (∀ r ∈ rows, maxScore r.scores ≤ threshold →
      decodeRow width height threshold r = none) ∧
    (∀ d ∈ decode width height threshold rows,
      threshold < d.confidence ∧
      ∃ r ∈ rows, ∀ s ∈ r.scores, s ≤ d.confidence) := by
  constructor
  · intro r _ hle
    exact (decodeRow_eq_none_iff width height threshold r).mpr hle
  · intro d hd
    obtain ⟨r, hr, hsome⟩ := List.mem_filterMap.mp hd
    have hconf := decodeRow_confidence width height threshold r d hsome
    have hne : decodeRow width height threshold r ≠ none := by
      rw [hsome]; exact Option.some_ne_none d
    have hgt : threshold < maxScore r.scores := by
      by_contra hle
      exact hne ((decodeRow_eq_none_iff width height threshold r).mpr (not_lt.mp hle))
    refine ⟨hconf ▸ hgt, r, hr, ?_⟩
    intro s hs
    exact hconf ▸ maxScore_is_max r.scores s hs

/-- Witness for C2 at a concrete input: the single-row frame
[cx=1/2, cy=1/2, w=1/5, h=3/10, scores=[9/10]] decoded at threshold 1/2
emits a detection whose confidence 9/10 exceeds the threshold. -/
theorem claim_c2_decoder_threshold_witness :
    (1 : ℚ) / 2 < (Detection.mk 0 (9/10) ⟨166, 146, 83, 124⟩).confidence :=
  ((claim_c2_decoder_threshold 416 416 (1/2)
      [⟨1/2, 1/2, 1/5, 3/10, [9/10]⟩]).2
    ⟨0, 9/10, ⟨166, 146, 83, 124⟩⟩
    (by norm_num [decode, decodeRow, argmax, truncQ])).1

/-- Claim C3: the row cx=1/2, cy=1/2, w=1/5, h=3/10 on a 416x416 frame
decodes (with truncation toward zero at every int cast) to the box with
top-left corner (166, 146) and extent (83, 124). -/
theorem claim_c3_decode_example :
    decodeRow 416 416 (1/2) ⟨1/2, 1/2, 1/5, 3/10, [9/10]⟩ =
      some ⟨0, 9/10, ⟨166, 146, 83, 124⟩⟩ := by
  norm_num [decodeRow, argmax, truncQ]

/-- Claim C8, refuted by the code: with a class list of length 2, a raw
row carrying 3 class scores is not rejected; the decode loop silently
emits a detection whose class_id 2 is not even a valid index into the
class list. No ShapeMismatch check exists in the source. -/
theorem claim_c8_no_shape_check :
    (([0, 0, 9/10] : List ℚ).length ≠ 2) ∧
    decode 416 416 (1/2) [⟨1/2, 1/2, 1/5, 3/10, [0, 0, 9/10]⟩] =
      [⟨2, 9/10, ⟨166, 146, 83, 124⟩⟩] ∧
    ¬ ((⟨2, 9/10, ⟨166, 146, 83, 124⟩⟩ : Detection).class_id < 2) := by
  refine ⟨by norm_num, ?_, by norm_num⟩
  norm_num [decode, List.filterMap, decodeRow, argmax, truncQ]

/-! ### Non-max suppression

The notebook delegates suppression to the external library primitive,
called as NMSBoxes(boxes, confidences, score_threshold, nms_threshold)
and returning a list of retained indices.  The algorithm itself is not
part of the repository, so it is modelled from the spec (section 4.2):
gate by score threshold, sort by confidence descending with ties broken
by original index, then greedily retain the best candidate and drop
every remaining candidate whose IoU with it exceeds the overlap
threshold. -/

/-- Modelled from the spec: IoU of two pixel boxes, intersection area
over union area; a box with zero or negative width or height has IoU 0
with everything. -/
def iou (a b : Box) : ℚ :=
  if a.w ≤ 0 ∨ a.h ≤ 0 ∨ b.w ≤ 0 ∨ b.h ≤ 0 then 0
  else
    let iw : ℤ := min (a.x + a.w) (b.x + b.w) - max a.x b.x
    let ih : ℤ := min (a.y + a.h) (b.y + b.h) - max a.y b.y
    if iw ≤ 0 ∨ ih ≤ 0 then 0
    else ((iw * ih : ℤ) : ℚ) / ((a.w * a.h + b.w * b.h - iw * ih : ℤ) : ℚ)

/-- A suppression candidate: original index, confidence, pixel box.
Exactly the data the notebook passes to the library call; class ids are
not part of it. -/
abbrev Candidate : Type := ℕ × ℚ × Box

/-- Modelled from the spec: the greedy retention pass, with explicit
fuel so that the definition is structurally recursive.  The head of the
(already sorted) candidate list is retained and every remaining
candidate whose IoU with it exceeds the overlap threshold is removed. -/
def nmsGreedyFuel (overlap : ℚ) : ℕ → List Candidate → List ℕ
  | 0, _ => []
  | _ + 1, [] => []
  | fuel + 1, c :: rest =>
    c.1 :: nmsGreedyFuel overlap fuel
      (rest.filter (fun p => decide (iou c.2.2 p.2.2 ≤ overlap)))

/-- Modelled from the spec: the greedy retention pass on a sorted
candidate list. -/
def nmsGreedy (overlap : ℚ) (l : List Candidate) : List ℕ :=
  nmsGreedyFuel overlap l.length l

/-- Modelled from the spec: stable insertion into a list sorted by
confidence descending; a candidate is placed before the first element
whose confidence does not exceed its own, so equal confidences keep
their original relative order. -/
def insertDesc (c : Candidate) : List Candidate → List Candidate
  | [] => [c]
  | d :: rest =>
    if d.2.1 ≤ c.2.1 then c :: d :: rest else d :: insertDesc c rest

/-- Modelled from the spec: stable sort by confidence descending, ties
broken by original index ascending. -/
def sortDesc : List Candidate → List Candidate
  | [] => []
  | c :: rest => insertDesc c (sortDesc rest)

/-- Pair each index below the common length with its confidence and
box, in index order. -/
def mkCands (boxes : List Box) (confs : List ℚ) : List Candidate :=
  (List.range boxes.length).filterMap fun i =>
    match boxes.get? i, confs.get? i with
    | some b, some c => some (i, c, b)
    | _, _ => none

/-- Modelled from the spec: the suppression primitive the notebook
calls as NMSBoxes(boxes, confidences, score_threshold, nms_threshold);
returns the retained indices. -/
def nmsBoxes (boxes : List Box) (confs : List ℚ)
    (score overlap : ℚ) : List ℕ :=
  nmsGreedy overlap
    (sortDesc ((mkCands boxes confs).filter (fun p => decide (score ≤ p.2.1))))

/-- The suppression stage applied to a decoded DetectionSet: the
notebook passes exactly the boxes list and the confidences list. -/
def suppress (dets : List Detection) (score overlap : ℚ) : List ℕ :=
  nmsBoxes (dets.map Detection.box) (dets.map Detection.confidence) score overlap

/-- IoU is symmetric. -/
theorem iou_comm (a b : Box) : iou a b = iou b a := by
  simp only [iou]
  by_cases h : a.w ≤ 0 ∨ a.h ≤ 0 ∨ b.w ≤ 0 ∨ b.h ≤ 0
  · have h' : b.w ≤ 0 ∨ b.h ≤ 0 ∨ a.w ≤ 0 ∨ a.h ≤ 0 := by tauto
    rw [if_pos h, if_pos h']
  · have h' : ¬(b.w ≤ 0 ∨ b.h ≤ 0 ∨ a.w ≤ 0 ∨ a.h ≤ 0) := by tauto
    rw [if_neg h, if_neg h', min_comm (b.x + b.w) (a.x + a.w), max_comm b.x a.x,
      min_comm (b.y + b.h) (a.y + a.h), max_comm b.y a.y,
      add_comm (b.w * b.h) (a.w * a.h)]

/-- A degenerate box (first argument) has IoU 0 with everything. -/
theorem iou_degenerate_left {a : Box} (b : Box) (h : a.w ≤ 0 ∨ a.h ≤ 0) :
    iou a b = 0 := by
  simp only [iou]
  rw [if_pos (by tauto)]

/-- A degenerate box (second argument) has IoU 0 with everything. -/
theorem iou_degenerate_right (a : Box) {b : Box} (h : b.w ≤ 0 ∨ b.h ≤ 0) :
    iou a b = 0 := by
  rw [iou_comm]
  exact iou_degenerate_left a h

/-- The fuel argument of the greedy pass is irrelevant as long as it
covers the list length. -/
theorem nmsGreedyFuel_congr (overlap : ℚ) :
    ∀ (f g : ℕ) (l : List Candidate), l.length ≤ f → l.length ≤ g →
      nmsGreedyFuel overlap f l = nmsGreedyFuel overlap g l := by
  intro f
  induction f with
  | zero =>
    intro g l hf _
    have hl : l = [] := List.eq_nil_of_length_eq_zero (Nat.le_zero.mp hf)
    subst hl
    cases g <;> rfl
  | succ f ih =>
    intro g l hf hg
    cases l with
    | nil => cases g <;> rfl
    | cons c rest =>
      cases g with
      | zero => exact absurd hg (by simp)
      | succ g' =>
        simp only [nmsGreedyFuel]
        congr 1
        have hrf : rest.length ≤ f := by simpa using hf
        have hrg : rest.length ≤ g' := by simpa using hg
        exact ih g' _ (le_trans (List.length_filter_le _ _) hrf)
          (le_trans (List.length_filter_le _ _) hrg)

/-- Unfolding the greedy pass on a cons cell. -/
theorem nmsGreedy_cons (overlap : ℚ) (c : Candidate) (rest : List Candidate) :
    nmsGreedy overlap (c :: rest) =
      c.1 :: nmsGreedy overlap
        (rest.filter (fun p => decide (iou c.2.2 p.2.2 ≤ overlap))) := by
  unfold nmsGreedy
  simp only [List.length_cons, nmsGreedyFuel]
  congr 1
  exact nmsGreedyFuel_congr overlap rest.length _ _
    (List.length_filter_le _ _) le_rfl

/-- Every retained index names a candidate of the input list. -/
theorem nmsGreedy_mem (overlap : ℚ) :
    ∀ (l : List Candidate), ∀ i ∈ nmsGreedy overlap l, ∃ c ∈ l, c.1 = i
  | [] => by
    intro i hi
    simp [nmsGreedy, nmsGreedyFuel] at hi
  | c :: rest => by
    intro i hi
    rw [nmsGreedy_cons] at hi
    rcases List.mem_cons.mp hi with h | h
    · exact ⟨c, List.mem_cons_self c rest, h.symm⟩
    · obtain ⟨d, hd, hdi⟩ := nmsGreedy_mem overlap
        (rest.filter (fun p => decide (iou c.2.2 p.2.2 ≤ overlap))) i h
      exact ⟨d, List.mem_cons_of_mem c (List.mem_of_mem_filter hd), hdi⟩
termination_by l => l.length
decreasing_by
  simp only [List.length_cons]
  exact Nat.lt_succ_of_le (List.length_filter_le _ _)

/-- In a candidate list with no duplicate indices, an index determines
its confidence and box. -/
theorem fst_nodup_uniq :
    ∀ {l : List Candidate}, (l.map Prod.fst).Nodup →
      ∀ {i : ℕ} {p q : ℚ × Box}, (i, p) ∈ l → (i, q) ∈ l → p = q := by
  intro l
  induction l with
  | nil =>
    intro _ i p q hp _
    cases hp
  | cons a rest ih =>
    intro hnd i p q hp hq
    rw [List.map_cons, List.nodup_cons] at hnd
    rcases List.mem_cons.mp hp with h | h
    · rcases List.mem_cons.mp hq with h' | h'
      · rw [← h] at h'
        exact (Prod.mk.injEq _ _ _ _).mp h' |>.2.symm ▸ rfl
      · exfalso
        apply hnd.1
        rw [← h]
        exact List.mem_map.mpr ⟨(i, q), h', rfl⟩
    · rcases List.mem_cons.mp hq with h' | h'
      · exfalso
        apply hnd.1
        rw [← h']
        exact List.mem_map.mpr ⟨(i, p), h, rfl⟩
      · exact ih hnd.2 h h'

/-- Key soundness property of the greedy pass: on a candidate list with
no duplicate indices, any two distinct retained candidates have IoU at
most the overlap threshold. -/
theorem nmsGreedy_pairwise (overlap : ℚ) :
    ∀ (l : List Candidate), (l.map Prod.fst).Nodup →
      ∀ (i j : ℕ) (ci cj : ℚ) (bi bj : Box),
        (i, ci, bi) ∈ l → (j, cj, bj) ∈ l →
        i ∈ nmsGreedy overlap l → j ∈ nmsGreedy overlap l → i ≠ j →
        iou bi bj ≤ overlap
  | [] => by
    intro _ i j ci cj bi bj hpi _ _ _ _
    cases hpi
  | c :: rest => by
    intro hnd i j ci cj bi bj hpi hpj hi hj hij
    have hnd' : ((c :: rest).map Prod.fst).Nodup := hnd
    rw [List.map_cons, List.nodup_cons] at hnd'
    set fl := rest.filter (fun p => decide (iou c.2.2 p.2.2 ≤ overlap)) with hfl
    have hflnd : (fl.map Prod.fst).Nodup :=
      List.Nodup.sublist (List.Sublist.map Prod.fst (List.filter_sublist rest)) hnd'.2
    -- a pair of the cons list whose index is retained in the tail call
    -- is itself an element of the filtered list
    have hpush : ∀ (k : ℕ) (ck : ℚ) (bk : Box), (k, ck, bk) ∈ c :: rest →
        k ∈ nmsGreedy overlap fl → (k, ck, bk) ∈ fl := by
      intro k ck bk hpk hk
      obtain ⟨d, hd, hdk⟩ := nmsGreedy_mem overlap fl k hk
      have hdrest : d ∈ rest := List.mem_of_mem_filter hd
      have hpk' : (k, ck, bk) ∈ rest := by
        rcases List.mem_cons.mp hpk with h | h
        · exfalso
          apply hnd'.1
          exact List.mem_map.mpr ⟨d, hdrest, by rw [hdk, ← h]⟩
        · exact h
      have hd2 : d.2 = (ck, bk) := by
        have hd' : (k, d.2) ∈ rest := by
          rw [← hdk]
          exact hdrest
        exact fst_nodup_uniq hnd'.2 hd' hpk'
      have hdeq : d = (k, ck, bk) := by
        rw [← hdk, ← hd2]
      exact hdeq ▸ hd
    rw [nmsGreedy_cons] at hi hj
    rcases List.mem_cons.mp hi with hic | hitail
    · rcases List.mem_cons.mp hj with hjc | hjtail
      · exact absurd (hic.trans hjc.symm) hij
      · -- i is the head, j is retained in the tail
        have hbi : bi = c.2.2 := by
          rcases List.mem_cons.mp hpi with h | h
          · rw [← h]
          · exfalso
            apply hnd'.1
            exact List.mem_map.mpr ⟨(i, ci, bi), h, hic ▸ rfl⟩
        have hjfl : (j, cj, bj) ∈ fl := hpush j cj bj hpj hjtail
        have := List.mem_filter.mp hjfl |>.2
        rw [hbi]
        exact of_decide_eq_true this
    · rcases List.mem_cons.mp hj with hjc | hjtail
      · -- j is the head, i is retained in the tail
        have hbj : bj = c.2.2 := by
          rcases List.mem_cons.mp hpj with h | h
          · rw [← h]
          · exfalso
            apply hnd'.1
            exact List.mem_map.mpr ⟨(j, cj, bj), h, hjc ▸ rfl⟩
        have hifl : (i, ci, bi) ∈ fl := hpush i ci bi hpi hitail
        have := List.mem_filter.mp hifl |>.2
        rw [hbj, iou_comm]
        exact of_decide_eq_true this
      · -- both retained in the tail call: recurse on the filtered list
        have hifl : (i, ci, bi) ∈ fl := hpush i ci bi hpi hitail
        have hjfl : (j, cj, bj) ∈ fl := hpush j cj bj hpj hjtail
        exact nmsGreedy_pairwise overlap fl hflnd i j ci cj bi bj
          hifl hjfl hitail hjtail hij
termination_by l => l.length
decreasing_by
  simp only [List.length_cons]
  exact Nat.lt_succ_of_le (List.length_filter_le _ _)

/-- Insertion produces a permutation of pushing in front. -/
theorem insertDesc_perm (c : Candidate) :
    ∀ l : List Candidate, (insertDesc c l).Perm (c :: l) := by
  intro l
  induction l with
  | nil => exact List.Perm.refl _
  | cons d rest ih =>
    simp only [insertDesc]
    by_cases h : d.2.1 ≤ c.2.1
    · rw [if_pos h]
    · rw [if_neg h]
      exact List.Perm.trans (ih.cons d) (List.Perm.swap c d rest)

/-- Sorting is a permutation. -/
theorem sortDesc_perm : ∀ l : List Candidate, (sortDesc l).Perm l := by
  intro l
  induction l with
  | nil => exact List.Perm.refl _
  | cons c rest ih =>
    exact List.Perm.trans (insertDesc_perm c (sortDesc rest)) (ih.cons c)

/-- Characterization of the candidate enumeration. -/
theorem mkCands_mem {boxes : List Box} {confs : List ℚ} {i : ℕ} {c : ℚ}
    {b : Box} :
    (i, c, b) ∈ mkCands boxes confs ↔
      boxes.get? i = some b ∧ confs.get? i = some c := by
  unfold mkCands
  rw [List.mem_filterMap]
  constructor
  · rintro ⟨a, _, hfa⟩
    cases hb : boxes.get? a with
    | none => rw [hb] at hfa; exact absurd hfa (by simp)
    | some b' =>
      cases hc : confs.get? a with
      | none => rw [hb, hc] at hfa; exact absurd hfa (by simp)
      | some c' =>
        rw [hb, hc] at hfa
        simp only [Option.some.injEq, Prod.mk.injEq] at hfa
        obtain ⟨rfl, rfl, rfl⟩ := hfa
        exact ⟨hb, hc⟩
  · rintro ⟨hb, hc⟩
    have hi : i < boxes.length := by
      by_contra hge
      rw [List.get?_eq_none.mpr (not_lt.mp hge)] at hb
      exact Option.noConfusion hb
    exact ⟨i, List.mem_range.mpr hi, by rw [hb, hc]⟩

/-- The first components of the enumeration form a sublist of the index
range, hence carry no duplicates. -/
theorem mkCands_fst_nodup (boxes : List Box) (confs : List ℚ) :
    ((mkCands boxes confs).map Prod.fst).Nodup := by
  have key : ∀ (l : List ℕ),
      ((l.filterMap fun i =>
        match boxes.get? i, confs.get? i with
        | some b, some c => some ((i, c, b) : Candidate)
        | _, _ => none).map Prod.fst).Sublist l := by
    intro l
    induction l with
    | nil => simp
    | cons a rest ih =>
      rw [List.filterMap_cons]
      cases hb : boxes.get? a with
      | none => exact List.Sublist.cons a ih
      | some b' =>
        cases hc : confs.get? a with
        | none => exact List.Sublist.cons a ih
        | some c' => exact List.Sublist.cons₂ a ih
  exact List.Nodup.sublist (key (List.range boxes.length)) (List.nodup_range _)

/-- The candidate list fed to the greedy pass keeps distinct indices. -/
theorem nmsInput_fst_nodup (boxes : List Box) (confs : List ℚ) (score : ℚ) :
    ((sortDesc ((mkCands boxes confs).filter
        (fun p => decide (score ≤ p.2.1)))).map Prod.fst).Nodup := by
  have h1 : (((mkCands boxes confs).filter
      (fun p => decide (score ≤ p.2.1))).map Prod.fst).Nodup :=
    List.Nodup.sublist (List.Sublist.map Prod.fst (List.filter_sublist _))
      (mkCands_fst_nodup boxes confs)
  exact (List.Perm.nodup_iff
    (List.Perm.map Prod.fst (sortDesc_perm _))).mpr h1

/-- Every index retained by the suppression primitive names an in-range
entry that passed the score gate. -/
theorem nmsBoxes_mem {boxes : List Box} {confs : List ℚ}
    {score overlap : ℚ} {i : ℕ}
    (h : i ∈ nmsBoxes boxes confs score overlap) :
    ∃ c b, boxes.get? i = some b ∧ confs.get? i = some c ∧ score ≤ c := by
  unfold nmsBoxes at h
  obtain ⟨⟨i', c, b⟩, hmem, hfst⟩ := nmsGreedy_mem _ _ i h
  cases hfst
  have hmem' := (sortDesc_perm _).mem_iff.mp hmem
  have hf := List.mem_filter.mp hmem'
  obtain ⟨hb, hc⟩ := mkCands_mem.mp hf.1
  exact ⟨c, b, hb, hc, of_decide_eq_true hf.2⟩

/-- Every retained index is in range of the boxes list. -/
theorem nmsBoxes_subset {boxes : List Box} {confs : List ℚ}
    {score overlap : ℚ} :
    ∀ i ∈ nmsBoxes boxes confs score overlap, i < boxes.length := by
  intro i hi
  obtain ⟨c, b, hb, _, _⟩ := nmsBoxes_mem hi
  by_contra hge
  rw [List.get?_eq_none.mpr (not_lt.mp hge)] at hb
  exact Option.noConfusion hb

/-- Two distinct retained indices name boxes whose IoU is at most the
overlap threshold. -/
theorem nmsBoxes_pairwise {boxes : List Box} {confs : List ℚ}
    {score overlap : ℚ} :
    ∀ i j bi bj, i ∈ nmsBoxes boxes confs score overlap →
      j ∈ nmsBoxes boxes confs score overlap → i ≠ j →
      boxes.get? i = some bi → boxes.get? j = some bj →
      iou bi bj ≤ overlap := by
  intro i j bi bj hi hj hij hbi hbj
  obtain ⟨ci, bi', hbi', hci, hsi⟩ := nmsBoxes_mem hi
  obtain ⟨cj, bj', hbj', hcj, hsj⟩ := nmsBoxes_mem hj
  rw [hbi] at hbi'
  injection hbi' with e1
  rw [hbj] at hbj'
  injection hbj' with e2
  subst e1
  subst e2
  set l := sortDesc ((mkCands boxes confs).filter
    (fun p => decide (score ≤ p.2.1))) with hl
  have hpi : (i, ci, bi) ∈ l :=
    (sortDesc_perm _).mem_iff.mpr
      (List.mem_filter.mpr ⟨mkCands_mem.mpr ⟨hbi, hci⟩, decide_eq_true hsi⟩)
  have hpj : (j, cj, bj) ∈ l :=
    (sortDesc_perm _).mem_iff.mpr
      (List.mem_filter.mpr ⟨mkCands_mem.mpr ⟨hbj, hcj⟩, decide_eq_true hsj⟩)
  unfold nmsBoxes at hi hj
  exact nmsGreedy_pairwise overlap l
    (nmsInput_fst_nodup boxes confs score) i j ci cj bi bj hpi hpj hi hj hij

/-- Claim C1: for every detection set and every pair of thresholds, the
retained index set is a subset of the input indices, and any two
distinct retained detections have IoU at most the overlap threshold. -/
theorem claim_c1_nms_sound (boxes : List Box) (confs : List ℚ)
    (score overlap : ℚ) :
    (∀ i ∈ nmsBoxes boxes confs score overlap, i < boxes.length) ∧
    (∀ i j bi bj, i ∈ nmsBoxes boxes confs score overlap →
      j ∈ nmsBoxes boxes confs score overlap → i ≠ j →
      boxes.get? i = some bi → boxes.get? j = some bj →
      iou bi bj ≤ overlap) :=
  ⟨nmsBoxes_subset, nmsBoxes_pairwise⟩

/-- Witness for C1 at a concrete input: both disjoint boxes are
retained, their indices are in range, and their IoU 0 is at most the
overlap threshold 3/5. -/
theorem claim_c1_nms_sound_witness :
    iou ⟨0, 0, 10, 10⟩ ⟨100, 100, 10, 10⟩ ≤ 3/5 :=
  (claim_c1_nms_sound [⟨0, 0, 10, 10⟩, ⟨100, 100, 10, 10⟩] [9/10, 8/10]
      (2/5) (3/5)).2 0 1 ⟨0, 0, 10, 10⟩ ⟨100, 100, 10, 10⟩
    (by norm_num [nmsBoxes, nmsGreedy, nmsGreedyFuel, sortDesc, insertDesc,
      mkCands, List.range_succ, List.filterMap, List.filter, iou])
    (by norm_num [nmsBoxes, nmsGreedy, nmsGreedyFuel, sortDesc, insertDesc,
      mkCands, List.range_succ, List.filterMap, List.filter, iou])
    (by norm_num) rfl rfl

/-- Claim C4: two boxes with IoU 9/10 and confidences 9/10 and 6/10,
suppressed with score threshold 2/5 and overlap threshold 3/5 (both
confidences above the score threshold), retain exactly the index of the
9/10-confidence detection. -/
theorem claim_c4_two_box_example :
    iou ⟨0, 0, 10, 19⟩ ⟨0, 1, 10, 19⟩ = 9/10 ∧
    nmsBoxes [⟨0, 0, 10, 19⟩, ⟨0, 1, 10, 19⟩] [9/10, 6/10] (2/5) (3/5) =
      [0] := by
  constructor
  · norm_num [iou]
  · norm_num [nmsBoxes, nmsGreedy, nmsGreedyFuel, sortDesc, insertDesc,
      mkCands, List.range_succ, List.filterMap, List.filter, iou]

/-- Retaining a degenerate-box candidate removes nothing, provided the
overlap threshold is nonnegative. -/
theorem nmsGreedy_degenerate_head (overlap : ℚ) (hov : 0 ≤ overlap)
    (c : Candidate) (rest : List Candidate)
    (hdeg : c.2.2.w ≤ 0 ∨ c.2.2.h ≤ 0) :
    nmsGreedy overlap (c :: rest) = c.1 :: nmsGreedy overlap rest := by
  rw [nmsGreedy_cons]
  have : rest.filter (fun p => decide (iou c.2.2 p.2.2 ≤ overlap)) = rest := by
    apply List.filter_eq_self.mpr
    intro p _
    exact decide_eq_true
      (le_trans (le_of_eq (iou_degenerate_left p.2.2 hdeg)) hov)
  rw [this]

/-- A degenerate-box candidate survives every filter step and so is
always retained, provided the overlap threshold is nonnegative. -/
theorem nmsGreedy_degenerate_retained (overlap : ℚ) (hov : 0 ≤ overlap) :
    ∀ (l : List Candidate) (q : Candidate), q ∈ l →
      (q.2.2.w ≤ 0 ∨ q.2.2.h ≤ 0) → q.1 ∈ nmsGreedy overlap l
  | [] => by
    intro q hq _
    cases hq
  | c :: rest => by
    intro q hq hdeg
    rw [nmsGreedy_cons]
    rcases List.mem_cons.mp hq with h | h
    · rw [h]
      exact List.mem_cons_self _ _
    · apply List.mem_cons_of_mem
      apply nmsGreedy_degenerate_retained overlap hov _ q _ hdeg
      exact List.mem_filter.mpr ⟨h, decide_eq_true
        (le_trans (le_of_eq (iou_degenerate_right c.2.2 hdeg)) hov)⟩
termination_by l => l.length
decreasing_by
  simp only [List.length_cons]
  exact Nat.lt_succ_of_le (List.length_filter_le _ _)

/-- Claim C6: a box with zero or negative width or height has IoU 0 with
every box (in both argument orders); hence, for a nonnegative overlap
threshold, retaining such a candidate removes no other candidate, and
such a candidate is never removed by overlap, so it is always
retained once it is in the candidate list. -/
theorem claim_c6_degenerate_box :
    (∀ a b : Box, a.w ≤ 0 ∨ a.h ≤ 0 → iou a b = 0 ∧ iou b a = 0) ∧
    (∀ overlap : ℚ, 0 ≤ overlap →
      (∀ (c : Candidate) (rest : List Candidate),
        c.2.2.w ≤ 0 ∨ c.2.2.h ≤ 0 →
        nmsGreedy overlap (c :: rest) = c.1 :: nmsGreedy overlap rest) ∧
      (∀ (l : List Candidate) (q : Candidate), q ∈ l →
        q.2.2.w ≤ 0 ∨ q.2.2.h ≤ 0 → q.1 ∈ nmsGreedy overlap l)) := by
  refine ⟨?_, ?_⟩
  · intro a b h
    exact ⟨iou_degenerate_left b h, iou_degenerate_right b h⟩
  · intro overlap hov
    exact ⟨nmsGreedy_degenerate_head overlap hov,
      nmsGreedy_degenerate_retained overlap hov⟩

/-- Witness for C6 at a concrete input: a zero-width box has IoU 0 with
a normal box, removes nothing when retained first, and is itself
retained. -/
theorem claim_c6_degenerate_box_witness :
    iou ⟨0, 0, 0, 5⟩ ⟨2, 2, 3, 3⟩ = 0 ∧
    nmsGreedy (1/2)
        [((0 : ℕ), (9 : ℚ)/10, (⟨0, 0, 0, 5⟩ : Box)),
         ((1 : ℕ), (8 : ℚ)/10, (⟨2, 2, 3, 3⟩ : Box))] =
      0 :: nmsGreedy (1/2) [((1 : ℕ), (8 : ℚ)/10, (⟨2, 2, 3, 3⟩ : Box))] ∧
    (1 : ℕ) ∈ nmsGreedy (1/2)
        [((0 : ℕ), (9 : ℚ)/10, (⟨2, 2, 3, 3⟩ : Box)),
         ((1 : ℕ), (8 : ℚ)/10, (⟨0, 0, 0, 5⟩ : Box))] :=
  ⟨(claim_c6_degenerate_box.1 ⟨0, 0, 0, 5⟩ ⟨2, 2, 3, 3⟩ (Or.inl le_rfl)).1,
   (claim_c6_degenerate_box.2 (1/2) (by norm_num)).1
     ((0 : ℕ), (9 : ℚ)/10, (⟨0, 0, 0, 5⟩ : Box)) _ (Or.inl le_rfl),
   (claim_c6_degenerate_box.2 (1/2) (by norm_num)).2 _
     ((1 : ℕ), (8 : ℚ)/10, (⟨0, 0, 0, 5⟩ : Box)) (by simp) (Or.inl le_rfl)⟩

/-- Claim C7: suppression never reads class ids — rewriting every
class_id while keeping confidence and box leaves the retained set
unchanged — and at a concrete input a 9/10-confidence detection of
class 0 suppresses an overlapping 6/10-confidence detection of the
different class 1. -/
theorem claim_c7_class_agnostic :
    (∀ (dets : List Detection) (f : Detection → Detection) (score overlap : ℚ),
      (∀ d, (f d).confidence = d.confidence ∧ (f d).box = d.box) →
      suppress (dets.map f) score overlap = suppress dets score overlap) ∧
    suppress [⟨0, 9/10, ⟨0, 0, 10, 19⟩⟩, ⟨1, 6/10, ⟨0, 1, 10, 19⟩⟩]
      (2/5) (3/5) = [0] := by
  constructor
  · intro dets f score overlap hf
    unfold suppress
    rw [List.map_map, List.map_map]
    have h1 : List.map (Detection.box ∘ f) dets = List.map Detection.box dets :=
      List.map_congr_left (fun d _ => (hf d).2)
    have h2 : List.map (Detection.confidence ∘ f) dets =
        List.map Detection.confidence dets :=
      List.map_congr_left (fun d _ => (hf d).1)
    rw [h1, h2]
  · norm_num [suppress, List.map, nmsBoxes, nmsGreedy, nmsGreedyFuel,
      sortDesc, insertDesc, mkCands, List.range_succ, List.filterMap,
      List.filter, iou]

/-- Witness for C7 at a concrete input: shifting every class id by one
leaves the retained set of the two-detection example unchanged. -/
theorem claim_c7_class_agnostic_witness :
    suppress (([⟨0, 9/10, ⟨0, 0, 10, 19⟩⟩, ⟨1, 6/10, ⟨0, 1, 10, 19⟩⟩] :
        List Detection).map
        (fun d => ⟨d.class_id + 1, d.confidence, d.box⟩)) (2/5) (3/5) =
      suppress [⟨0, 9/10, ⟨0, 0, 10, 19⟩⟩, ⟨1, 6/10, ⟨0, 1, 10, 19⟩⟩]
        (2/5) (3/5) :=
  claim_c7_class_agnostic.1 _ _ _ _ (fun _ => ⟨rfl, rfl⟩)

/-- Indices below n that lie in the retained set, in ascending order. -/
def keepIdx (n : ℕ) (keep : List ℕ) : List ℕ :=
  (List.range n).filter (fun i => decide (i ∈ keep))

/-- Restrict a per-detection list to the entries whose index is in the
retained set, preserving the original order (the retained set filters,
never reorders). -/
def restrict {α : Type} (l : List α) (keep : List ℕ) : List α :=
  (keepIdx l.length keep).filterMap l.get?

theorem mem_keepIdx {n : ℕ} {keep : List ℕ} {i : ℕ} :
    i ∈ keepIdx n keep ↔ i < n ∧ i ∈ keep := by
  unfold keepIdx
  rw [List.mem_filter, List.mem_range]
  simp

theorem keepIdx_nodup (n : ℕ) (keep : List ℕ) : (keepIdx n keep).Nodup :=
  List.Nodup.sublist (List.filter_sublist _) (List.nodup_range n)

/-- filterMap by get? over in-range indices keeps the length. -/
theorem filterMap_get?_length {α : Type} (l : List α) :
    ∀ idxs : List ℕ, (∀ i ∈ idxs, i < l.length) →
      (idxs.filterMap l.get?).length = idxs.length := by
  intro idxs
  induction idxs with
  | nil => intro _; rfl
  | cons a rest ih =>
    intro h
    have ha : a < l.length := h a (List.mem_cons_self _ _)
    obtain ⟨x, hx⟩ : ∃ x, l.get? a = some x := ⟨_, List.get?_eq_get ha⟩
    rw [List.filterMap_cons_some hx, List.length_cons, List.length_cons,
      ih (fun i hi => h i (List.mem_cons_of_mem a hi))]

/-- filterMap by get? over in-range indices, read back positionally. -/
theorem filterMap_get?_get? {α : Type} (l : List α) :
    ∀ idxs : List ℕ, (∀ i ∈ idxs, i < l.length) → ∀ k,
      (idxs.filterMap l.get?).get? k = (idxs.get? k).bind l.get? := by
  intro idxs
  induction idxs with
  | nil =>
    intro _ k
    cases k <;> rfl
  | cons a rest ih =>
    intro h k
    have ha : a < l.length := h a (List.mem_cons_self _ _)
    obtain ⟨x, hx⟩ : ∃ x, l.get? a = some x := ⟨_, List.get?_eq_get ha⟩
    rw [List.filterMap_cons_some hx]
    cases k with
    | zero =>
      rw [List.get?_cons_zero, List.get?_cons_zero]
      exact hx.symm
    | succ k' =>
      rw [List.get?_cons_succ, List.get?_cons_succ]
      exact ih (fun i hi => h i (List.mem_cons_of_mem a hi)) k'

/-- If all candidates pass the score gate pairwise-compatibly — any two
distinct indices have IoU at most the threshold — the greedy pass
removes nothing and retains every candidate in sorted order. -/
theorem nmsGreedy_all (overlap : ℚ) :
    ∀ l : List Candidate, (l.map Prod.fst).Nodup →
      (∀ p ∈ l, ∀ q ∈ l, p.1 ≠ q.1 → iou p.2.2 q.2.2 ≤ overlap) →
      nmsGreedy overlap l = l.map Prod.fst := by
  intro l
  induction l with
  | nil => intro _ _; rfl
  | cons c rest ih =>
    intro hnd hpw
    have hnd' := hnd
    rw [List.map_cons, List.nodup_cons] at hnd'
    rw [nmsGreedy_cons]
    have hfl : rest.filter (fun p => decide (iou c.2.2 p.2.2 ≤ overlap)) =
        rest := by
      apply List.filter_eq_self.mpr
      intro q hq
      apply decide_eq_true
      apply hpw c (List.mem_cons_self _ _) q (List.mem_cons_of_mem c hq)
      intro he
      apply hnd'.1
      rw [he]
      exact List.mem_map.mpr ⟨q, hq, rfl⟩
    rw [hfl, List.map_cons,
      ih hnd'.2 (fun p hp q hq hne => hpw p (List.mem_cons_of_mem c hp)
        q (List.mem_cons_of_mem c hq) hne)]

/-- An index appears among the candidates exactly when it is in range
of both input lists. -/
theorem mkCands_fst_mem {boxes : List Box} {confs : List ℚ} {i : ℕ} :
    i ∈ (mkCands boxes confs).map Prod.fst ↔
      i < boxes.length ∧ i < confs.length := by
  rw [List.mem_map]
  constructor
  · rintro ⟨⟨i', c, b⟩, hm, hfst⟩
    cases hfst
    obtain ⟨hb, hc⟩ := mkCands_mem.mp hm
    exact ⟨(List.get?_eq_some.mp hb).1, (List.get?_eq_some.mp hc).1⟩
  · rintro ⟨hbi, hci⟩
    exact ⟨(i, confs.get ⟨i, hci⟩, boxes.get ⟨i, hbi⟩),
      mkCands_mem.mpr ⟨List.get?_eq_get hbi, List.get?_eq_get hci⟩, rfl⟩

/-- Claim C5: suppression is idempotent — restricting the detection set
to its own retained output and suppressing again with the same
thresholds retains every detection of the restricted set, i.e. exactly
the same detections as before. -/
theorem claim_c5_idempotent (boxes : List Box) (confs : List ℚ)
    (score overlap : ℚ) (hlen : confs.length = boxes.length) :
    ∀ k, (k ∈ nmsBoxes (restrict boxes (nmsBoxes boxes confs score overlap))
            (restrict confs (nmsBoxes boxes confs score overlap))
            score overlap ↔
          k < (restrict boxes (nmsBoxes boxes confs score overlap)).length) := by
  intro k
  set r := nmsBoxes boxes confs score overlap with hr
  set idxs := keepIdx boxes.length r with hidxs
  have hin : ∀ i ∈ idxs, i < boxes.length :=
    fun i hi => (mem_keepIdx.mp (hidxs ▸ hi)).1
  have hinr : ∀ i ∈ idxs, i ∈ r :=
    fun i hi => (mem_keepIdx.mp (hidxs ▸ hi)).2
  have hinc : ∀ i ∈ idxs, i < confs.length :=
    fun i hi => hlen ▸ hin i hi
  have hbrest : restrict boxes r = idxs.filterMap boxes.get? := rfl
  have hcrest : restrict confs r = idxs.filterMap confs.get? := by
    unfold restrict
    rw [hlen, ← hidxs]
  have hblen : (restrict boxes r).length = idxs.length := by
    rw [hbrest]
    exact filterMap_get?_length boxes idxs hin
  have hclen : (restrict confs r).length = idxs.length := by
    rw [hcrest]
    exact filterMap_get?_length confs idxs hinc
  have cand_orig : ∀ k' c b,
      (k', c, b) ∈ mkCands (restrict boxes r) (restrict confs r) →
      ∃ i, idxs.get? k' = some i ∧ boxes.get? i = some b ∧
        confs.get? i = some c := by
    intro k' c b hm
    obtain ⟨hb, hc⟩ := mkCands_mem.mp hm
    rw [hbrest, filterMap_get?_get? boxes idxs hin k'] at hb
    rw [hcrest, filterMap_get?_get? confs idxs hinc k'] at hc
    obtain ⟨i, hi1, hi2⟩ := Option.bind_eq_some.mp hb
    obtain ⟨i2, hj1, hj2⟩ := Option.bind_eq_some.mp hc
    rw [hi1] at hj1
    injection hj1 with e
    subst e
    exact ⟨i, hi1, hi2, hj2⟩
  have gate : ∀ p ∈ mkCands (restrict boxes r) (restrict confs r),
      (fun p : Candidate => decide (score ≤ p.2.1)) p = true := by
    intro p hp
    obtain ⟨k', c, b⟩ := p
    obtain ⟨i, hik, hib, hic⟩ := cand_orig k' c b hp
    obtain ⟨c0, b0, hb0, hc0, hs0⟩ := nmsBoxes_mem (hinr i (List.get?_mem hik))
    rw [hic] at hc0
    injection hc0 with e
    apply decide_eq_true
    show score ≤ c
    rw [e]
    exact hs0
  have pw : ∀ p ∈ mkCands (restrict boxes r) (restrict confs r),
      ∀ q ∈ mkCands (restrict boxes r) (restrict confs r),
      p.1 ≠ q.1 → iou p.2.2 q.2.2 ≤ overlap := by
    intro p hp q hq hne
    obtain ⟨k1, c1, b1⟩ := p
    obtain ⟨k2, c2, b2⟩ := q
    obtain ⟨i1, hik1, hib1, hic1⟩ := cand_orig k1 c1 b1 hp
    obtain ⟨i2, hik2, hib2, hic2⟩ := cand_orig k2 c2 b2 hq
    have hk1len : k1 < idxs.length := (List.get?_eq_some.mp hik1).1
    have hne' : i1 ≠ i2 := by
      intro he
      apply hne
      exact List.get?_inj hk1len (hidxs ▸ keepIdx_nodup boxes.length r)
        (by rw [hik1, hik2, he])
    exact nmsBoxes_pairwise i1 i2 b1 b2 (hinr i1 (List.get?_mem hik1))
      (hinr i2 (List.get?_mem hik2)) hne' hib1 hib2
  have hgate : (mkCands (restrict boxes r) (restrict confs r)).filter
      (fun p => decide (score ≤ p.2.1)) =
      mkCands (restrict boxes r) (restrict confs r) :=
    List.filter_eq_self.mpr gate
  have hnd : ((sortDesc (mkCands (restrict boxes r)
      (restrict confs r))).map Prod.fst).Nodup :=
    (List.Perm.nodup_iff (List.Perm.map Prod.fst (sortDesc_perm _))).mpr
      (mkCands_fst_nodup _ _)
  have hpw' : ∀ p ∈ sortDesc (mkCands (restrict boxes r) (restrict confs r)),
      ∀ q ∈ sortDesc (mkCands (restrict boxes r) (restrict confs r)),
      p.1 ≠ q.1 → iou p.2.2 q.2.2 ≤ overlap :=
    fun p hp q hq =>
      pw p ((sortDesc_perm _).mem_iff.mp hp) q ((sortDesc_perm _).mem_iff.mp hq)
  have heval : nmsBoxes (restrict boxes r) (restrict confs r) score overlap =
      (sortDesc (mkCands (restrict boxes r) (restrict confs r))).map
        Prod.fst := by
    unfold nmsBoxes
    rw [hgate]
    exact nmsGreedy_all overlap _ hnd hpw'
  rw [heval]
  constructor
  · intro hk
    exact (mkCands_fst_mem.mp
      ((List.Perm.mem_iff (List.Perm.map Prod.fst (sortDesc_perm _))).mp hk)).1
  · intro hk
    apply (List.Perm.mem_iff (List.Perm.map Prod.fst (sortDesc_perm _))).mpr
    apply mkCands_fst_mem.mpr
    refine ⟨hk, ?_⟩
    rw [hclen, ← hblen]
    exact hk

/-- Witness for C5 at a concrete input: rerunning suppression on the
restriction of the two-detection example to its retained output keeps
retaining its single detection. -/
theorem claim_c5_idempotent_witness :
    (0 : ℕ) ∈ nmsBoxes
      (restrict [⟨0, 0, 10, 19⟩, ⟨0, 1, 10, 19⟩]
        (nmsBoxes [⟨0, 0, 10, 19⟩, ⟨0, 1, 10, 19⟩] [9/10, 6/10] (2/5) (3/5)))
      (restrict [9/10, 6/10]
        (nmsBoxes [⟨0, 0, 10, 19⟩, ⟨0, 1, 10, 19⟩] [9/10, 6/10] (2/5) (3/5)))
      (2/5) (3/5) :=
  (claim_c5_idempotent [⟨0, 0, 10, 19⟩, ⟨0, 1, 10, 19⟩] [9/10, 6/10]
      (2/5) (3/5) rfl 0).mpr
    (by norm_num [restrict, keepIdx, nmsBoxes, nmsGreedy, nmsGreedyFuel,
      sortDesc, insertDesc, mkCands, List.range_succ, List.filterMap,
      List.filter, iou])

/-! ### Frame processing loop (video mode)

The notebook's video loop is
  while True:
    _, frame = cap.read(); frame_id += 1; ...process...;
    key = cv2.waitKey(1);
    if key == 27: break
  cap.release(); cv2.destroyAllWindows()
The read result is never checked: on an unreadable frame, frame is None
and frame.shape raises, terminating the script before cap.release() is
reached — there is no try/finally.  The loop is modelled over the
per-iteration external inputs. -/

/-- One iteration's external interactions: whether cap.read() delivered
a usable frame, and the key code returned by waitKey(1). -/
structure FrameInput where
  readOk : Bool
  key : ℤ
deriving DecidableEq, Repr

/-- How a run of the loop ended. -/
inductive ExitKind where
  | cancelled : ExitKind
  | error : ExitKind
  | exhausted : ExitKind
deriving DecidableEq, Repr

/-- Observable outcome of a loop run: iterations entered, exit kind and
how many times cap.release() executed. -/
structure RunResult where
  iterationsDone : ℕ
  exitKind : ExitKind
  releaseCount : ℕ
deriving DecidableEq, Repr

/-- The video loop over a trace of per-iteration inputs.  An unreadable
frame raises out of the script with no release; the ESC key (27) breaks
out of the loop and reaches cap.release() exactly once; the exhausted
case only marks the end of the modelled trace. -/
def runLoop : List FrameInput → ℕ → RunResult
  | [], n => ⟨n, ExitKind.exhausted, 0⟩
  | inp :: rest, n =>
    if inp.readOk = false then
      ⟨n + 1, ExitKind.error, 0⟩
    else if inp.key = 27 then
      ⟨n + 1, ExitKind.cancelled, 1⟩
    else
      runLoop rest (n + 1)

/-- Claim C9 is violated on the error path: the ESC exit does stop the
loop and release the capture exactly once, but when a frame read fails
the script dies before cap.release(), so the release count on that exit
path is 0, not 1. -/
theorem claim_c9_error_path_skips_release :
    runLoop [⟨true, 0⟩, ⟨true, 27⟩] 0 = ⟨2, ExitKind.cancelled, 1⟩ ∧
    runLoop [⟨false, 0⟩] 0 = ⟨1, ExitKind.error, 0⟩ ∧
    (runLoop [⟨false, 0⟩] 0).releaseCount ≠ 1 :=
  ⟨rfl, rfl, by decide⟩

/-! ### Annotation color lookup (still-image mode)

The color table is built once with one row per class
(colors = np.random.uniform(0, 255, size=(len(classes), 3))), but the
still-image annotation loop selects color = colors[i] where i is the
retained detection index, not the class id. -/

/-- An RGB triple of the color table. -/
abbrev Color : Type := ℚ × ℚ × ℚ

/-- Color selection of the still-image annotation loop: for each
retained index i the notebook reads colors[i]; an index beyond the
table raises, modelled as none. -/
def annotateColors (colors : List Color) : List ℕ → Option (List Color)
  | [] => some []
  | i :: rest =>
    match colors.get? i, annotateColors colors rest with
    | some c, some cs => some (c :: cs)
    | _, _ => none

/-- A retained index beyond the color table makes the whole annotation
pass fail. -/
theorem annotateColors_oob (colors : List Color) :
    ∀ (retained : List ℕ) (i : ℕ), i ∈ retained → colors.length ≤ i →
      annotateColors colors retained = none := by
  intro retained
  induction retained with
  | nil =>
    intro i hi _
    cases hi
  | cons j rest ih =>
    intro i hi hge
    rcases List.mem_cons.mp hi with h | h
    · have hj : colors.get? j = none := List.get?_eq_none.mpr (h ▸ hge)
      simp only [annotateColors, hj]
    · have hrec := ih i h hge
      simp only [annotateColors, hrec]
      cases colors.get? j <;> rfl

/-- Claim C10: with the color table holding exactly one entry per class
and the still-image annotator indexing it by retained detection index,
any frame whose retained index set contains an index at or beyond the
class count makes the color lookup fail. -/
theorem claim_c10_color_lookup_out_of_range (classes : List String)
    (colors : List Color) (dets : List Detection) (score overlap : ℚ)
    (i : ℕ) (hlen : colors.length = classes.length)
    (hi : i ∈ suppress dets score overlap) (hge : classes.length ≤ i) :
    annotateColors colors (suppress dets score overlap) = none := by
  apply annotateColors_oob colors _ i hi
  rw [hlen]
  exact hge

/-- Witness for C10 at a concrete input: one class, two disjoint
detections both retained, so retained index 1 overruns the one-entry
color table and annotation fails. -/
theorem claim_c10_color_lookup_out_of_range_witness :
    annotateColors [((0 : ℚ), (0 : ℚ), (0 : ℚ))]
      (suppress [⟨0, 9/10, ⟨0, 0, 10, 10⟩⟩, ⟨0, 8/10, ⟨100, 100, 10, 10⟩⟩]
        (2/5) (3/5)) = none :=
  claim_c10_color_lookup_out_of_range ["person"]
    [((0 : ℚ), (0 : ℚ), (0 : ℚ))]
    [⟨0, 9/10, ⟨0, 0, 10, 10⟩⟩, ⟨0, 8/10, ⟨100, 100, 10, 10⟩⟩]
    (2/5) (3/5) 1 rfl
    (by norm_num [suppress, List.map, nmsBoxes, nmsGreedy, nmsGreedyFuel,
      sortDesc, insertDesc, mkCands, List.range_succ, List.filterMap,
      List.filter, iou])
    (by norm_num)

end Yolo
